import Mathlib

/-!
Verification of the netcop configuration parser (`netcop/parser.py`).

Lines of text are modelled as `List Char`; the `Conf` tree, the tokenizer
`nextToken`, the index builder `computeIndex`, the path resolver `getitem`,
the wildcard expander `expand`, the scalar accessor `ensureScalar` and the
indentation-driven tree builder `parse` are shallow embeddings of the
corresponding Python functions.  Functions whose Python originals recurse on
a shrinking key string are written with an explicit fuel argument (always
instantiated with more fuel than the key length) so that they are structural
and evaluate inside the kernel; fuel-irrelevance lemmas recover the natural
unfolding equations.
-/

namespace Netcop

/-- Convert a string literal to the character-list representation used
throughout the development. -/
def sl (s : String) : List Char := s.toList

/-- Whitespace test used by `str.split(None)`, `str.strip`, and the `\s*`
indent regexp of the Python source. -/
def isWS (c : Char) : Bool := c.isWhitespace

/-- Python `str.rstrip()`: remove trailing whitespace. -/
def rstrip (l : List Char) : List Char := (l.reverse.dropWhile isWS).reverse

/-- Python `str.strip()`: remove leading and trailing whitespace. -/
def stripWS (l : List Char) : List Char := rstrip (l.dropWhile isWS)

/-- A node of the configuration tree: the fields mirror the slots
`_line`, `_orig_line`, `_lineno`, `_trace`, `_children` of class `Conf`.
The lazily-populated `_index` slot is not a field: it is a pure function of
the other fields, modelled by `computeIndex` (and, for the caching claims,
by the instrumented state of `reindexStep`). -/
inductive Conf where
  | mk (line : Option (List Char)) (origLine : List Char) (lineno : Nat)
       (trace : List (List Char)) (children : List Conf)

/-- Field `_line` of a node. -/
def Conf.line : Conf → Option (List Char)
  | .mk l _ _ _ _ => l

/-- Field `_orig_line` of a node. -/
def Conf.origLine : Conf → List Char
  | .mk _ o _ _ _ => o

/-- Field `_lineno` of a node. -/
def Conf.lineno : Conf → Nat
  | .mk _ _ n _ _ => n

/-- Field `_trace` of a node. -/
def Conf.trace : Conf → List (List Char)
  | .mk _ _ _ t _ => t

/-- Field `_children` of a node. -/
def Conf.children : Conf → List Conf
  | .mk _ _ _ _ cs => cs

/-- The value `Conf()`: the universally falsy no-match node. -/
def Conf.empty : Conf := .mk none [] 0 [] []

/-- Python truthiness of a node (`__bool__`): `_line is not None`. -/
def Conf.truthy (c : Conf) : Bool := c.line.isSome

/-- The node's `_line` with `None` mapped to the empty text, as accepted by
`_next_token` (which treats `None` and `""` alike). -/
def Conf.lineD (c : Conf) : List Char := c.line.getD []

/-- Python truthiness of the `_line` field itself (`if self._line:`):
present and non-empty. -/
def Conf.lineTruthy (c : Conf) : Bool :=
  match c.line with
  | some l => !l.isEmpty
  | none => false

/-- Replace the `_trace` field, as the resolver's `ret._trace = ...`
assignment does. -/
def Conf.withTrace : Conf → List (List Char) → Conf
  | .mk l o n _ cs, t => .mk l o n t cs

/-- The four structural marker tokens of `_next_token`. -/
def markers : List (List Char) := [['{'], ['}'], ['#'], ['!']]

/-- Does the remainder start with a comment marker
(`rest.startswith(("#", "!"))`)? -/
def startsComment (l : List Char) : Bool :=
  match l with
  | '#' :: _ => true
  | '!' :: _ => true
  | _ => false

/-- Embedding of `Conf._next_token`: split off the first whitespace-delimited
token of a string, returning `(canonical lowercase form, display form,
remainder)`; structural markers give the all-empty triple, and a trailing
`;` is stripped when nothing but a comment follows. -/
def nextToken (s : List Char) : List Char × List Char × List Char :=
  let s1 := s.dropWhile isWS
  if s1.isEmpty then ([], [], [])
  else
    let token := s1.takeWhile (fun c => !isWS c)
    let rest := (s1.dropWhile (fun c => !isWS c)).dropWhile isWS
    if token ∈ markers then ([], [], [])
    else
      let tok2 :=
        if token.getLast? = some ';' ∧ (rest.isEmpty ∨ startsComment rest) then
          token.dropLast
        else token
      (tok2.map Char.toLower, tok2, rest)

/-- An index value: the insertion-ordered association list modelling the
Python dict `_index : Dict[str, Tuple[str, List[Conf]]]`. -/
def Index := List (List Char × List Char × List Conf)

/-- Embedding of `index.setdefault(token_lc, (token, []))[1].append(new)`:
append a contributor to the bucket of `lc`, keeping the first-seen display
keyword and bucket order. -/
def idxInsert : List (List Char × List Char × List Conf) → List Char → List Char → Conf →
    List (List Char × List Char × List Conf)
  | [], lc, tok, n => [(lc, tok, [n])]
  | (k, t, l) :: r, lc, tok, n =>
      if k = lc then (k, t, l ++ [n]) :: r else (k, t, l) :: idxInsert r lc tok n

/-- Dict lookup `self._index.get(token_lc)`. -/
def idxFind : List (List Char × List Char × List Conf) → List Char →
    Option (List Char × List Conf)
  | [], _ => none
  | (k, t, l) :: r, lc => if k = lc then some (t, l) else idxFind r lc

/-- Embedding of `orig_line or line or ""` in `Conf._new`. -/
def origOr (o l : List Char) : List Char := if o.isEmpty then l else o

/-- Embedding of the index computation inside `Conf._reindex`: if the node's
own line carries a keyword, a single synthetic child holding the remainder;
otherwise one bucket entry per child whose line carries a keyword. -/
def computeIndex (c : Conf) : List (List Char × List Char × List Conf) :=
  let t := nextToken c.lineD
  if !t.2.1.isEmpty then
    [(t.1, t.2.1, [Conf.mk (some t.2.2) (origOr c.origLine t.2.2) c.lineno [] c.children])]
  else
    c.children.foldl
      (fun idx ch =>
        let u := nextToken ch.lineD
        if !u.2.1.isEmpty then
          idxInsert idx u.1 u.2.1
            (Conf.mk (some u.2.2) (origOr ch.origLine u.2.2) ch.lineno [] ch.children)
        else idx)
      []

/-- Display keywords of a node in index order (Python `__iter__`). -/
def keywords (c : Conf) : List (List Char) := (computeIndex c).map (fun e => e.2.1)

/-- Fueled embedding of `Conf.__getitem__`: resolve the first keyword of the
key against the index (returning the node itself when there is no keyword
and the falsy `Conf.empty` when the lookup misses, merging multi-contributor
buckets into a synthetic container node) and recurse on the remainder of the
key.  The fuel always exceeds the key length at every use. -/
def getitemF : Nat → Conf → List Char → Conf
  | 0, c, _ => c
  | f + 1, c, key =>
    let t := nextToken key
    if t.1.isEmpty then c
    else
      match idxFind (computeIndex c) t.1 with
      | none => Conf.empty
      | some (tok, l) =>
        let ret :=
          match l with
          | [n] => n.withTrace (c.trace ++ [tok])
          | ns =>
              Conf.mk (some []) (origOr (ns.headD Conf.empty).origLine [])
                (ns.headD Conf.empty).lineno (c.trace ++ [tok]) ns
        if t.2.2.isEmpty then ret else getitemF f ret t.2.2

/-- The resolver `Conf.__getitem__` at adequate fuel. -/
def getitem (c : Conf) (key : List Char) : Conf := getitemF (key.length + 1) c key

/-- Scan for the closing `]` of a glob character class, returning the class
content and the remaining pattern, or `none` when the bracket is unmatched. -/
def findClose : List Char → Option (List Char × List Char)
  | [] => none
  | ']' :: r => some ([], r)
  | c :: r =>
    match findClose r with
    | some (a, b) => some (c :: a, b)
    | none => none

/-- Parse a glob character class (the pattern after a `[`), following
`fnmatch.translate`: an optional leading `!` negates, a `]` right after it is
literal class content, and an unmatched bracket yields `none` (literal `[`). -/
def splitClass (l : List Char) : Option (Bool × List Char × List Char) :=
  match l with
  | '!' :: ']' :: r => (findClose r).map (fun p => (true, ']' :: p.1, p.2))
  | '!' :: r => (findClose r).map (fun p => (true, p.1, p.2))
  | ']' :: r => (findClose r).map (fun p => (false, ']' :: p.1, p.2))
  | r => (findClose r).map (fun p => (false, p.1, p.2))

/-- Membership of a character in a class body, with `a-b` ranges compared by
code point as in the regex produced by `fnmatch.translate`. -/
def inClass : List Char → Char → Bool
  | [], _ => false
  | x :: '-' :: y :: r, c => (decide (x.val ≤ c.val ∧ c.val ≤ y.val)) || inClass r c
  | x :: r, c => (x = c) || inClass r c

/-- Fueled embedding of the (POSIX, `os.path.normcase` = identity, hence
case-sensitive) shell-glob matching performed by `fnmatch.filter`: `*` any
run, `?` any one character, `[...]` a character class, everything else
literal, anchored at both ends. -/
def globMatchF : Nat → List Char → List Char → Bool
  | 0, _, _ => false
  | f + 1, pat, s =>
    match pat, s with
    | [], s => s.isEmpty
    | '*' :: ps, s =>
        globMatchF f ps s ||
          (match s with
           | [] => false
           | _ :: cs => globMatchF f ('*' :: ps) cs)
    | '?' :: ps, s =>
        (match s with
         | [] => false
         | _ :: cs => globMatchF f ps cs)
    | '[' :: ps, s =>
        (match splitClass ps with
         | none =>
             (match s with
              | c :: cs => (c = '[') && globMatchF f ps cs
              | [] => false)
         | some (neg, content, r2) =>
             (match s with
              | [] => false
              | c :: cs => (inClass content c != neg) && globMatchF f r2 cs))
    | p :: ps, s =>
        (match s with
         | c :: cs => (p = c) && globMatchF f ps cs
         | [] => false)

/-- Glob matching at adequate fuel (every step consumes pattern or subject). -/
def globMatch (pat s : List Char) : Bool := globMatchF (pat.length + s.length + 1) pat s

/-- Does a token contain a glob metacharacter
(`any(x in token for x in "*?[")`)? -/
def hasGlobChar (t : List Char) : Bool := t.any (fun c => c = '*' || c = '?' || c = '[')

/-- Conditions `expand` can raise: `invalidUsage` models the `ValueError`
for a non-final `~`, `assertFailed` the `assert c._line` in the aggregate
branch, and `noFuel` is the fuel-exhaustion artifact that adequate fuel
never reaches. -/
inductive EErr where
  | invalidUsage
  | assertFailed
  | noFuel

/-- Aggregate branch of the `~` case of `expand`: one singleton tuple of
stripped line text per child, with the per-child `assert c._line`. -/
def tildeChildren : List Conf → Except EErr (List (List (List Char)))
  | [] => .ok []
  | ch :: r =>
    if ch.lineTruthy then
      match tildeChildren r with
      | .ok l => .ok ([stripWS ch.lineD] :: l)
      | .error e => .error e
    else .error .assertFailed

/-- Glob-branch loop of `expand`: for each matched display keyword `k`,
expand the remainder on `self[k]` and prepend `k` to every yielded tuple;
the expander for the remainder key is passed in as `e`. -/
def globLoop (e : Conf → List Char → Except EErr (List (List (List Char))))
    (c : Conf) (rest : List Char) :
    List (List Char) → Except EErr (List (List (List Char)))
  | [] => .ok []
  | k :: ks =>
    match e (getitem c k) rest with
    | .error err => .error err
    | .ok r =>
      match globLoop e c rest ks with
      | .error err => .error err
      | .ok r2 => .ok (r.map (fun t => k :: t) ++ r2)

/-- Fueled embedding of `Conf.expand` (with `return_conf=False`): the list of
tuples produced by fully iterating the generator, or the condition raised
during iteration.  Branches in source order: empty key, `~` capture, glob
segment, plain segment. -/
def expandF : Nat → Conf → List Char → Except EErr (List (List (List Char)))
  | 0, _, _ => .error .noFuel
  | f + 1, c, key =>
    if key.isEmpty then .ok [[]]
    else
      let t := nextToken key
      if t.2.1 = ['~'] then
        if !t.2.2.isEmpty then .error .invalidUsage
        else if c.lineTruthy then .ok [[stripWS c.lineD]]
        else tildeChildren c.children
      else if hasGlobChar t.2.1 then
        globLoop (expandF f) c t.2.2
          ((keywords c).filter (fun k => globMatch t.2.1 k))
      else
        let ch := getitem c t.2.1
        if ch.truthy then expandF f ch t.2.2 else .ok []

/-- The wildcard expander `Conf.expand` at adequate fuel. -/
def expand (c : Conf) (key : List Char) : Except EErr (List (List (List Char))) :=
  expandF (key.length + 1) c key

/-- Property `Conf.tails`: the text element of each tuple of `expand("~")`. -/
def tails (c : Conf) : Except EErr (List (List Char)) :=
  (expand c ['~']).map (fun l => l.map (fun t => t.headD []))

/-- Conditions raised by `Conf._ensure_scalar` (both are `KeyError`s in
Python; the spec names them `NoMatch` and `AmbiguousMatch`), carrying the
node's trace and source line, and for ambiguity the entry count. -/
inductive SErr where
  | noMatch (trace : List (List Char)) (lineno : Nat)
  | ambiguousMatch (count : Nat) (trace : List (List Char)) (lineno : Nat)

/-- Embedding of `Conf._ensure_scalar`: build the index; zero entries fail
with `NoMatch`, more than one with `AmbiguousMatch`, otherwise the result is
the sole canonical keyword (`next(iter(self._index))`, the first dict key). -/
def ensureScalar (c : Conf) : Except SErr (List Char) :=
  let idx := computeIndex c
  if idx.length = 0 then .error (.noMatch c.trace c.lineno)
  else if 1 < idx.length then .error (.ambiguousMatch idx.length c.trace c.lineno)
  else .ok (idx.headD ([], [], [])).1

/-- Property `Conf.word`: exactly `_ensure_scalar`'s result. -/
def word (c : Conf) : Except SErr (List Char) := ensureScalar c

/-- A frame of the tree builder's stack: the pending node's fields plus the
indent string it was pushed with.  Children accumulate in the frame and are
attached when the frame is popped. -/
structure Frame where
  line : Option (List Char)
  orig : List Char
  lineno : Nat
  children : List Conf
  indent : List Char

/-- The bottom-of-stack frame for the root node. -/
def rootFrame : Frame := ⟨none, [], 0, [], []⟩

/-- Pop the top frame: turn it into a finished `Conf` node appended to the
children of the frame below (Python appends at push time; attaching at pop
time yields the same child order). -/
def closeFrame (top under : Frame) : Frame :=
  { under with children := under.children ++ [Conf.mk top.line top.orig top.lineno [] top.children] }

/-- The `while len(indent) <= len(stack[-1][1]) and stack[-1][0] is not self`
pop loop of `Conf._parse`, fueled by the stack length. -/
def collapseWhileF : Nat → Nat → List Frame → List Frame
  | 0, _, st => st
  | f + 1, ind, st =>
    match st with
    | top :: under :: r =>
        if ind ≤ top.indent.length then collapseWhileF f ind (closeFrame top under :: r)
        else st
    | _ => st

/-- One iteration of the line loop of `Conf._parse`: rstrip the raw line,
compute its leading-whitespace indent, skip it when it equals its indent
(blank line), otherwise attach a new frame either directly under a more
shallowly indented top or after popping frames at greater-or-equal indent. -/
def step (st : List Frame) (lineno : Nat) (raw : List Char) : List Frame :=
  let line := rstrip raw
  let indent := line.takeWhile isWS
  if line = indent then st
  else
    let node : Frame := ⟨some line, line, lineno, [], indent⟩
    match st with
    | [] => [node]
    | top :: r =>
      if top.indent.length < indent.length then node :: top :: r
      else node :: collapseWhileF (top :: r).length indent.length (top :: r)

/-- The line loop of `Conf._parse` over the enumerated input lines. -/
def runParseAux : Nat → List (List Char) → List Frame → List Frame
  | _, [], st => st
  | i, l :: ls, st => runParseAux (i + 1) ls (step st i l)

/-- Collapse every remaining frame into the root frame at end of input. -/
def collapseAllF : Nat → List Frame → Frame
  | 0, st => st.headD rootFrame
  | f + 1, st =>
    match st with
    | [fr] => fr
    | top :: under :: r => collapseAllF f (closeFrame top under :: r)
    | [] => rootFrame

/-- Embedding of `Conf.__init__` with a list of lines: run `_parse` and then
force the root's `_line` to `""` when it has children (`None` otherwise). -/
def parse (lines : List (List Char)) : Conf :=
  let st := runParseAux 0 lines [rootFrame]
  let fr := collapseAllF st.length st
  Conf.mk (if fr.children.isEmpty then none else some []) [] 0 [] fr.children

/-- Instrumented embedding of `Conf._reindex` acting on a node paired with
its `_index` slot (initially the empty dict): the guard `if self._index:
return` skips recomputation exactly when the stored dict is non-empty; the
boolean records whether this call computed the index. -/
def reindexStep (s : Conf × List (List Char × List Char × List Conf)) :
    (Conf × List (List Char × List Char × List Conf)) × Bool :=
  if s.2.isEmpty then ((s.1, computeIndex s.1), true) else (s, false)

/-- Parent/child structure of a tree, with each node reduced to its source
line number. -/
inductive LTree where
  | node (lineno : Nat) (children : List LTree)

/-- Fueled structure extraction: the `LTree` of line numbers of a `Conf`
subtree, faithful whenever the fuel exceeds the tree height. -/
def shapeF : Nat → Conf → LTree
  | 0, c => .node c.lineno []
  | f + 1, c => .node c.lineno (c.children.map (shapeF f))

/-- Fueled worklist traversal listing `(lineno, depth)` for every node of an
`LTree` forest, in document order. -/
def depthsW : Nat → List (Nat × LTree) → List (Nat × Nat)
  | 0, _ => []
  | _ + 1, [] => []
  | f + 1, (d, .node n cs) :: r => (n, d) :: depthsW f (cs.map (fun c => (d + 1, c)) ++ r)

/-- Fueled worklist traversal listing every node of a `Conf` forest. -/
def descend : Nat → List Conf → List Conf
  | 0, _ => []
  | _ + 1, [] => []
  | f + 1, c :: r => c :: descend f (c.children ++ r)

/-- The only data of an input line that the tree builder's structure depends
on: `none` for a skipped blank line, otherwise the length of the leading
whitespace of the rstripped line. -/
def lineKey (l : List Char) : Option Nat :=
  let r := rstrip l
  if r = r.takeWhile isWS then none else some (r.takeWhile isWS).length

/-- Hereditary well-formedness of a document-derived node with respect to the
input lines: its `_orig_line` is the rstripped source line at its
`_lineno`, its `_line` equals its `_orig_line`, and all children are good. -/
inductive GoodNode (lines : List (List Char)) : Conf → Prop where
  | intro (c : Conf) :
      c.origLine = rstrip (lines.getD c.lineno []) →
      c.line = some c.origLine →
      (∀ ch ∈ c.children, GoodNode lines ch) →
      GoodNode lines c

/-- Fueled computation of the sequence of display tokens that the stepwise
tokenization of a key string produces. -/
def allTokensF : Nat → List Char → List (List Char)
  | 0, _ => []
  | f + 1, key =>
    if key.isEmpty then []
    else if (nextToken key).2.1.isEmpty then allTokensF f (nextToken key).2.2
    else (nextToken key).2.1 :: allTokensF f (nextToken key).2.2

/-- The display-token sequence of a key string at adequate fuel. -/
def allTokens (key : List Char) : List (List Char) := allTokensF (key.length + 1) key

/-- Number of glob segments of a key string. -/
def globCount (key : List Char) : Nat := (allTokens key).countP hasGlobChar

/-- No token of the key is the `~` capture marker. -/
def tildeFree (key : List Char) : Prop := ['~'] ∉ allTokens key

/-- Well-formedness of a pushed (non-root) stack frame. -/
def goodFrame (lines : List (List Char)) (fr : Frame) : Prop :=
  fr.line = some fr.orig ∧ fr.orig = rstrip (lines.getD fr.lineno []) ∧
    ∀ c ∈ fr.children, GoodNode lines c

/-- Well-formedness of the whole builder stack: a bottom (root) frame whose
accumulated children are good, under any number of good pushed frames. -/
inductive StGood (lines : List (List Char)) : List Frame → Prop where
  | root (fr : Frame) : (∀ c ∈ fr.children, GoodNode lines c) → StGood lines [fr]
  | push (fr : Frame) (st : List Frame) : goodFrame lines fr → StGood lines st →
      StGood lines (fr :: st)

/-- Equivalence of two builder frames up to everything the final shape can
observe: line number, indent length, and child shapes at every fuel. -/
def frEq (f f' : Frame) : Prop :=
  f.lineno = f'.lineno ∧ f.indent.length = f'.indent.length ∧
    ∀ fl, f.children.map (shapeF fl) = f'.children.map (shapeF fl)

/-- The five-line interface example of the specification. -/
def exLines : List (List Char) :=
  [sl "interface IF1",
   sl "    ip address 1.1.1.1",
   sl "    ip address 2.2.2.2 secondary",
   sl "interface IF2",
   sl "    ip address 1.1.1.2"]

/-- The parsed five-line interface example. -/
def exConf : Conf := parse exLines

/-- A one-line document with a single keyword under the root. -/
def c3Conf : Conf := parse [sl "b"]

/-- A one-line document with a mixed-case keyword. -/
def c4Conf : Conf := parse [sl "Foo bar"]

/-- A reachable truthy node whose computed index is empty: the node after
fully consuming `interface IF1 ip address 1.1.1.1`. -/
def c6Node : Conf := getitem exConf (sl "interface IF1 ip address 1.1.1.1")

/-- Five lines in which lines 2 and 4 have leading-whitespace runs of equal
length but sit at different tree depths. -/
def c7Lines : List (List Char) := [sl "a", sl "  b", sl "    c", sl "x", sl "    d"]

/-! Basic list lemmas used by the tokenizer reasoning. -/

theorem len_dropWhile_le (p : Char → Bool) : ∀ l : List Char, (l.dropWhile p).length ≤ l.length := by
  intro l
  induction l with
  | nil => simp
  | cons a t ih =>
    by_cases h : p a
    · simp only [List.dropWhile_cons, h, if_true, List.length_cons]
      omega
    · simp [List.dropWhile_cons, h]

theorem dropWhile_head_false (p : Char → Bool) :
    ∀ {l : List Char} {c : Char} {t : List Char}, l.dropWhile p = c :: t → p c = false := by
  intro l
  induction l with
  | nil => intro c t h; simp at h
  | cons a r ih =>
    intro c t h
    by_cases hp : p a
    · exact ih (by simpa [List.dropWhile_cons, hp] using h)
    · simp [List.dropWhile_cons, hp] at h
      rcases h with ⟨h1, _⟩
      rw [← h1]
      simpa using hp

theorem dropWhile_idem (p : Char → Bool) (l : List Char) :
    (l.dropWhile p).dropWhile p = l.dropWhile p := by
  cases h : l.dropWhile p with
  | nil => simp
  | cons c t => simp [List.dropWhile_cons, dropWhile_head_false p h]

theorem takeWhile_of_all (p : Char → Bool) :
    ∀ {l : List Char}, l.all p = true → l.takeWhile p = l := by
  intro l
  induction l with
  | nil => simp
  | cons a t ih =>
    intro h
    simp only [List.all_cons, Bool.and_eq_true] at h
    simp [List.takeWhile_cons, h.1, ih h.2]

theorem dropWhile_of_all (p : Char → Bool) :
    ∀ {l : List Char}, l.all p = true → l.dropWhile p = [] := by
  intro l
  induction l with
  | nil => simp
  | cons a t ih =>
    intro h
    simp only [List.all_cons, Bool.and_eq_true] at h
    simp [List.dropWhile_cons, h.1, ih h.2]

theorem takeWhile_append_stop (p : Char → Bool) {a : List Char} {y : Char} (b : List Char)
    (ha : a.all p = true) (hy : p y = false) : (a ++ y :: b).takeWhile p = a := by
  induction a with
  | nil => simp [List.takeWhile_cons, hy]
  | cons x r ih =>
    simp only [List.all_cons, Bool.and_eq_true] at ha
    simp [List.takeWhile_cons, ha.1, ih ha.2]

theorem dropWhile_append_stop (p : Char → Bool) {a : List Char} {y : Char} (b : List Char)
    (ha : a.all p = true) (hy : p y = false) : (a ++ y :: b).dropWhile p = y :: b := by
  induction a with
  | nil => simp [List.dropWhile_cons, hy]
  | cons x r ih =>
    simp only [List.all_cons, Bool.and_eq_true] at ha
    simp [List.dropWhile_cons, ha.1, ih ha.2]

/-! Tokenizer lemmas. -/

theorem nextToken_nil : nextToken [] = ([], [], []) := rfl

/-- The remainder produced by the tokenizer is strictly shorter than a
non-empty input: the basis of every fuel bound in the development. -/
theorem nextToken_rest_lt {s : List Char} (hs : s ≠ []) : (nextToken s).2.2.length < s.length := by
  have hs0 : 0 < s.length := List.length_pos.mpr hs
  have hbound : ¬(s.dropWhile isWS).isEmpty →
      (((s.dropWhile isWS).dropWhile (fun c => !isWS c)).dropWhile isWS).length < s.length := by
    intro h1
    cases hcons : s.dropWhile isWS with
    | nil => simp [hcons] at h1
    | cons c t =>
      have hc : isWS c = false := dropWhile_head_false isWS hcons
      have h3 : (s.dropWhile isWS).length ≤ s.length := len_dropWhile_le _ s
      have ht : t.length + 1 = (s.dropWhile isWS).length := by rw [hcons]; simp
      have hstep : ((c :: t).dropWhile (fun c => !isWS c)) = t.dropWhile (fun c => !isWS c) := by
        simp [List.dropWhile_cons, hc]
      rw [hstep]
      have h2 := len_dropWhile_le (fun c => !isWS c) t
      have h5 := len_dropWhile_le isWS (t.dropWhile (fun c => !isWS c))
      omega
  unfold nextToken
  by_cases h1 : (s.dropWhile isWS).isEmpty
  · simp [h1]; exact hs0
  · simp only [h1, Bool.false_eq_true, if_false]
    by_cases hm : (s.dropWhile isWS).takeWhile (fun c => !isWS c) ∈ markers
    · simp only [if_pos hm]
      simpa using hs0
    · simp only [if_neg hm]
      simpa using hbound h1

/-- If the tokenizer returns a non-empty canonical keyword, the input was
non-empty. -/
theorem nextToken_lc_ne_nil {s : List Char} (h : ¬(nextToken s).1.isEmpty) : s ≠ [] := by
  intro he
  subst he
  exact h (by simp [nextToken])

/-! Fuel irrelevance for the resolver, and its natural unfolding equation. -/

theorem getitemF_congr (f : Nat) :
    ∀ (g : Nat) (c : Conf) (key : List Char), key.length < f → key.length < g →
      getitemF f c key = getitemF g c key := by
  induction f using Nat.strong_induction_on with
  | _ f ih =>
    intro g c key hf hg
    match f, g with
    | f' + 1, g' + 1 =>
      show getitemF (f' + 1) c key = getitemF (g' + 1) c key
      simp only [getitemF]
      by_cases hlc : (nextToken key).1.isEmpty
      · simp [hlc]
      · have hkey : key ≠ [] := nextToken_lc_ne_nil hlc
        have hrest : (nextToken key).2.2.length < key.length := nextToken_rest_lt hkey
        simp only [hlc, Bool.false_eq_true, if_false]
        cases hfind : idxFind (computeIndex c) (nextToken key).1 with
        | none => simp
        | some p =>
          rcases p with ⟨tok, l⟩
          simp only []
          by_cases hre : (nextToken key).2.2.isEmpty
          · simp [hre]
          · simp only [hre, Bool.false_eq_true, if_false]
            exact ih f' (by omega) g' _ _ (by omega) (by omega)

theorem getitemF_eq_getitem {f : Nat} {c : Conf} {key : List Char} (hf : key.length < f) :
    getitemF f c key = getitem c key :=
  getitemF_congr f (key.length + 1) c key hf (by omega)

/-- Unfolding equation for `getitem`, mirroring `Conf.__getitem__` verbatim. -/
theorem getitem_unfold (c : Conf) (key : List Char) :
    getitem c key =
      (if (nextToken key).1.isEmpty then c
       else
         match idxFind (computeIndex c) (nextToken key).1 with
         | none => Conf.empty
         | some (tok, l) =>
           let ret :=
             match l with
             | [n] => n.withTrace (c.trace ++ [tok])
             | ns =>
                 Conf.mk (some []) (origOr (ns.headD Conf.empty).origLine [])
                   (ns.headD Conf.empty).lineno (c.trace ++ [tok]) ns
           if (nextToken key).2.2.isEmpty then ret else getitem ret (nextToken key).2.2) := by
  show getitemF (key.length + 1) c key = _
  simp only [getitemF]
  by_cases hlc : (nextToken key).1.isEmpty
  · simp [hlc]
  · have hkey : key ≠ [] := nextToken_lc_ne_nil hlc
    have hrest : (nextToken key).2.2.length < key.length := nextToken_rest_lt hkey
    simp only [hlc, Bool.false_eq_true, if_false]
    cases hfind : idxFind (computeIndex c) (nextToken key).1 with
    | none => simp
    | some p =>
      rcases p with ⟨tok, l⟩
      simp only []
      by_cases hre : (nextToken key).2.2.isEmpty
      · simp [hre]
      · simp only [hre, Bool.false_eq_true, if_false]
        exact getitemF_eq_getitem (by omega)

/-! Fuel irrelevance for the expander, and its natural unfolding equation. -/

theorem globLoop_congr {e1 e2 : Conf → List Char → Except EErr (List (List (List Char)))}
    {c : Conf} {rest : List Char} (h : ∀ x, e1 x rest = e2 x rest) :
    ∀ ks, globLoop e1 c rest ks = globLoop e2 c rest ks := by
  intro ks
  induction ks with
  | nil => rfl
  | cons k ks ih => simp only [globLoop, h, ih]

theorem expandF_congr (f : Nat) :
    ∀ (g : Nat) (c : Conf) (key : List Char), key.length < f → key.length < g →
      expandF f c key = expandF g c key := by
  induction f using Nat.strong_induction_on with
  | _ f ih =>
    intro g c key hf hg
    match f, g with
    | f' + 1, g' + 1 =>
      show expandF (f' + 1) c key = expandF (g' + 1) c key
      simp only [expandF]
      by_cases hk : key.isEmpty
      · simp [hk]
      · have hkey : key ≠ [] := by simpa using hk
        have hrest : (nextToken key).2.2.length < key.length := nextToken_rest_lt hkey
        simp only [hk, Bool.false_eq_true, if_false]
        by_cases htl : (nextToken key).2.1 = ['~']
        · simp [htl]
        · simp only [htl, if_false]
          by_cases hgl : hasGlobChar (nextToken key).2.1
          · simp only [hgl, if_true]
            exact globLoop_congr (fun x => ih f' (by omega) g' x _ (by omega) (by omega)) _
          · simp only [hgl, Bool.false_eq_true, if_false]
            by_cases htr : (getitem c (nextToken key).2.1).truthy
            · simp only [htr, if_true]
              exact ih f' (by omega) g' _ _ (by omega) (by omega)
            · simp [htr]

theorem expandF_eq_expand {f : Nat} {c : Conf} {key : List Char} (hf : key.length < f) :
    expandF f c key = expand c key :=
  expandF_congr f (key.length + 1) c key hf (by omega)

/-- Unfolding equation for `expand`, mirroring `Conf.expand` verbatim. -/
theorem expand_unfold (c : Conf) (key : List Char) :
    expand c key =
      (if key.isEmpty then .ok [[]]
       else if (nextToken key).2.1 = ['~'] then
         if !(nextToken key).2.2.isEmpty then .error .invalidUsage
         else if c.lineTruthy then .ok [[stripWS c.lineD]]
         else tildeChildren c.children
       else if hasGlobChar (nextToken key).2.1 then
         globLoop (fun x k => expand x k) c (nextToken key).2.2
           ((keywords c).filter (fun k => globMatch (nextToken key).2.1 k))
       else if (getitem c (nextToken key).2.1).truthy then
         expand (getitem c (nextToken key).2.1) (nextToken key).2.2
       else .ok []) := by
  show expandF (key.length + 1) c key = _
  simp only [expandF]
  by_cases hk : key.isEmpty
  · simp [hk]
  · have hkey : key ≠ [] := by simpa using hk
    have hrest : (nextToken key).2.2.length < key.length := nextToken_rest_lt hkey
    simp only [hk, Bool.false_eq_true, if_false]
    by_cases htl : (nextToken key).2.1 = ['~']
    · simp [htl]
    · simp only [htl, if_false]
      by_cases hgl : hasGlobChar (nextToken key).2.1
      · simp only [hgl, if_true]
        exact globLoop_congr (fun x => expandF_eq_expand (by omega)) _
      · simp only [hgl, Bool.false_eq_true, if_false]
        by_cases htr : (getitem c (nextToken key).2.1).truthy
        · simp only [htr, if_true]
          exact expandF_eq_expand (by omega)
        · simp [htr]

theorem allTokensF_congr (f : Nat) :
    ∀ (g : Nat) (key : List Char), key.length < f → key.length < g →
      allTokensF f key = allTokensF g key := by
  induction f using Nat.strong_induction_on with
  | _ f ih =>
    intro g key hf hg
    match f, g with
    | f' + 1, g' + 1 =>
      show allTokensF (f' + 1) key = allTokensF (g' + 1) key
      simp only [allTokensF]
      by_cases hk : key.isEmpty
      · simp [hk]
      · have hkey : key ≠ [] := by simpa using hk
        have hrest : (nextToken key).2.2.length < key.length := nextToken_rest_lt hkey
        have hrec := ih f' (by omega) g' (nextToken key).2.2 (by omega) (by omega)
        simp only [hk, Bool.false_eq_true, if_false, hrec]

theorem allTokensF_eq_allTokens {f : Nat} {key : List Char} (hf : key.length < f) :
    allTokensF f key = allTokens key :=
  allTokensF_congr f (key.length + 1) key hf (by omega)

/-- Unfolding equation for `allTokens`. -/
theorem allTokens_unfold (key : List Char) :
    allTokens key =
      (if key.isEmpty then []
       else if (nextToken key).2.1.isEmpty then allTokens (nextToken key).2.2
       else (nextToken key).2.1 :: allTokens (nextToken key).2.2) := by
  show allTokensF (key.length + 1) key = _
  simp only [allTokensF]
  by_cases hk : key.isEmpty
  · simp [hk]
  · have hkey : key ≠ [] := by simpa using hk
    have hrest : (nextToken key).2.2.length < key.length := nextToken_rest_lt hkey
    have hrec :=
      @allTokensF_eq_allTokens key.length (nextToken key).2.2 (by omega)
    simp only [hk, Bool.false_eq_true, if_false, hrec]

/-! Small resolver facts. -/

/-- Resolving any key on the falsy node yields the falsy node again. -/
theorem getitem_empty_conf (b : List Char) : getitem Conf.empty b = Conf.empty := by
  rw [getitem_unfold]
  by_cases hlc : (nextToken b).1.isEmpty
  · simp [hlc]
  · have : idxFind (computeIndex Conf.empty) (nextToken b).1 = none := rfl
    simp [hlc, this]

/-- The resolver ignores leading whitespace of the key. -/
theorem getitem_dropWS (c : Conf) (b : List Char) :
    getitem c (b.dropWhile isWS) = getitem c b := by
  have hnt : nextToken (b.dropWhile isWS) = nextToken b := by
    unfold nextToken
    rw [dropWhile_idem]
  rw [getitem_unfold, getitem_unfold c b, hnt]

/-- Resolving the empty key returns the node unchanged. -/
theorem getitem_nil (c : Conf) : getitem c [] = c := rfl

/-! Tokenizing a single simple token, and a simple token followed by a
space-separated remainder. -/

/-- A non-empty all-non-whitespace token that is not a structural marker and
has no trailing `;` tokenizes to itself with an empty remainder. -/
theorem nextToken_single {a : List Char} (ha : a ≠ [])
    (hw : a.all (fun c => !isWS c) = true) (hm : a ∉ markers)
    (hs : a.getLast? ≠ some ';') :
    nextToken a = (a.map Char.toLower, a, []) := by
  have hd : a.dropWhile isWS = a := by
    cases a with
    | nil => simp
    | cons x t =>
      have hx : isWS x = false := by
        have h' := hw
        simp only [List.all_cons, Bool.and_eq_true, Bool.not_eq_true'] at h'
        exact h'.1
      simp [List.dropWhile_cons, hx]
  have htk : a.takeWhile (fun c => !isWS c) = a := takeWhile_of_all _ hw
  have hdr : a.dropWhile (fun c => !isWS c) = [] := dropWhile_of_all _ hw
  unfold nextToken
  rw [hd]
  have hne : a.isEmpty = false := by
    cases a with
    | nil => exact absurd rfl ha
    | cons x t => rfl
  simp only [hne, Bool.false_eq_true, if_false, htk, hdr]
  simp only [List.dropWhile_nil]
  rw [if_neg hm, if_neg]
  intro hcond
  exact hs hcond.1

/-- Tokenizing `a ++ " " ++ b` for a simple token `a` gives `a` and the
remainder `b` with its leading whitespace absorbed into the separator. -/
theorem nextToken_sep {a : List Char} (b : List Char) (ha : a ≠ [])
    (hw : a.all (fun c => !isWS c) = true) (hm : a ∉ markers)
    (hs : a.getLast? ≠ some ';') :
    nextToken (a ++ ' ' :: b) = (a.map Char.toLower, a, b.dropWhile isWS) := by
  have hsp : isWS ' ' = true := rfl
  have hd : (a ++ ' ' :: b).dropWhile isWS = a ++ ' ' :: b := by
    cases a with
    | nil => exact absurd rfl ha
    | cons x t =>
      have hx : isWS x = false := by
        have h' := hw
        simp only [List.all_cons, Bool.and_eq_true, Bool.not_eq_true'] at h'
        exact h'.1
      simp [List.dropWhile_cons, hx]
  have htk : (a ++ ' ' :: b).takeWhile (fun c => !isWS c) = a :=
    takeWhile_append_stop _ b hw (by simp [hsp])
  have hdr : (a ++ ' ' :: b).dropWhile (fun c => !isWS c) = ' ' :: b :=
    dropWhile_append_stop _ b hw (by simp [hsp])
  unfold nextToken
  rw [hd]
  have hne : (a ++ ' ' :: b).isEmpty = false := by
    cases a with
    | nil => exact absurd rfl ha
    | cons x t => rfl
  simp only [hne, Bool.false_eq_true, if_false, htk, hdr]
  have hdrop2 : (' ' :: b).dropWhile isWS = b.dropWhile isWS := by
    simp [List.dropWhile_cons, hsp]
  rw [hdrop2, if_neg hm, if_neg]
  intro hcond
  exact hs hcond.1

/-- Resuming resolution on the remainder after the separator equals a fresh
resolution of the raw remainder key. -/
theorem getitem_tail_split (R : Conf) (b : List Char) :
    (if (b.dropWhile isWS).isEmpty then R else getitem R (b.dropWhile isWS)) = getitem R b := by
  by_cases hbe : (b.dropWhile isWS).isEmpty
  · have hbnil : b.dropWhile isWS = [] := by simpa using hbe
    rw [if_pos hbe, ← getitem_dropWS R b, hbnil, getitem_nil]
  · rw [if_neg hbe]
    exact getitem_dropWS R b

/-- Path decomposition for a simple first token: resolving `a ++ " " ++ b`
equals resolving `a` and then `b`, provided `a` is a single non-empty
whitespace-free token, not a structural marker, and without a trailing `;`
(the two excluded cases genuinely break the law). -/
theorem getitem_sep (n : Conf) {a : List Char} (b : List Char) (ha : a ≠ [])
    (hw : a.all (fun c => !isWS c) = true) (hm : a ∉ markers)
    (hs : a.getLast? ≠ some ';') :
    getitem n (a ++ ' ' :: b) = getitem (getitem n a) b := by
  have hlc : ((a.map Char.toLower).isEmpty) = false := by
    cases a with
    | nil => exact absurd rfl ha
    | cons x t => rfl
  rw [getitem_unfold n (a ++ ' ' :: b), nextToken_sep b ha hw hm hs]
  rw [getitem_unfold n a, nextToken_single ha hw hm hs]
  simp only [hlc, Bool.false_eq_true, if_false, List.isEmpty_nil, if_true]
  cases hfind : idxFind (computeIndex n) (a.map Char.toLower) with
  | none =>
    simp only []
    exact (getitem_empty_conf b).symm
  | some p =>
    rcases p with ⟨tok, l⟩
    simp only []
    exact getitem_tail_split _ b

/-! Expander lemmas. -/

/-- Expanding the empty key yields the single empty tuple. -/
theorem expand_nil (c : Conf) : expand c [] = .ok [[]] := rfl

/-- The glob-branch loop with an exhausted remainder key yields exactly one
singleton tuple per matched keyword. -/
theorem globLoop_nil_rest (c : Conf) :
    ∀ ks, globLoop (fun x k => expand x k) c [] ks = .ok (ks.map (fun k => [k])) := by
  intro ks
  induction ks with
  | nil => rfl
  | cons k ks ih =>
    simp only [globLoop, expand_nil, ih, List.map_cons, List.map_nil]
    rfl

/-- Expansion of a single simple glob token selects exactly the display
keywords of the node that match it (case-sensitively), in index order, one
singleton tuple each. -/
theorem expand_single_glob (c : Conf) {pat : List Char} (ha : pat ≠ [])
    (hw : pat.all (fun ch => !isWS ch) = true) (hm : pat ∉ markers)
    (hs : pat.getLast? ≠ some ';') (hg : hasGlobChar pat = true) :
    expand c pat = .ok (((keywords c).filter (fun k => globMatch pat k)).map (fun k => [k])) := by
  have hpe : pat.isEmpty = false := by
    cases pat with
    | nil => exact absurd rfl ha
    | cons x t => rfl
  have htl : pat ≠ ['~'] := by
    intro h
    rw [h] at hg
    exact absurd hg (by decide)
  rw [expand_unfold, nextToken_single ha hw hm hs]
  simp only [hpe, Bool.false_eq_true, if_false, htl, hg, if_true]
  exact globLoop_nil_rest c _

/-- A key whose first token is `~` with a non-empty remainder makes `expand`
raise the invalid-usage condition, on every node. -/
theorem expand_nonfinal_tilde (c : Conf) {key : List Char}
    (ht : (nextToken key).2.1 = ['~']) (hr : (nextToken key).2.2 ≠ []) :
    expand c key = .error .invalidUsage := by
  have hk : key.isEmpty = false := by
    cases key with
    | nil => exact absurd (by rw [nextToken_nil] at ht; exact ht) (by decide)
    | cons x t => rfl
  have hre : (!(nextToken key).2.2.isEmpty) = true := by
    simpa using hr
  rw [expand_unfold]
  simp [hk, ht, hre]

/-- A key whose first whitespace-delimited word is a structural marker
resolves to the node itself, unchanged. -/
theorem getitem_marker (c : Conf) {key : List Char}
    (h : (key.dropWhile isWS).takeWhile (fun ch => !isWS ch) ∈ markers) :
    getitem c key = c := by
  have hne : (key.dropWhile isWS).isEmpty = false := by
    cases hd : key.dropWhile isWS with
    | nil =>
      rw [hd] at h
      simp [markers] at h
    | cons x t => rfl
  have hnt : nextToken key = ([], [], []) := by
    unfold nextToken
    simp only [hne, Bool.false_eq_true, if_false, if_pos h]
  rw [getitem_unfold, hnt]
  simp

/-! The tuple-arity law for `expand` on `~`-free keys. -/

theorem expand_arity :
    ∀ (n : Nat) (key : List Char), key.length = n → ∀ (c : Conf), tildeFree key →
      ∃ l, expand c key = .ok l ∧ ∀ t ∈ l, t.length = globCount key := by
  intro n
  induction n using Nat.strong_induction_on with
  | _ n ih =>
    intro key hn c hfree
    by_cases hk : key.isEmpty
    · have : key = [] := by simpa using hk
      subst this
      refine ⟨[[]], rfl, ?_⟩
      intro t ht
      simp only [List.mem_singleton] at ht
      subst ht
      rfl
    · have hkey : key ≠ [] := by simpa using hk
      have hrest : (nextToken key).2.2.length < key.length := nextToken_rest_lt hkey
      have hfree' : tildeFree (nextToken key).2.2 := by
        intro hmem
        apply hfree
        rw [allTokens_unfold]
        simp only [hk, Bool.false_eq_true, if_false]
        by_cases he : (nextToken key).2.1.isEmpty
        · simpa [he] using hmem
        · simp only [he, Bool.false_eq_true, if_false]
          exact List.mem_cons_of_mem _ hmem
      have hcount : ¬(nextToken key).2.1.isEmpty →
          globCount key = (if hasGlobChar (nextToken key).2.1 then 1 else 0) +
            globCount (nextToken key).2.2 := by
        intro he
        unfold globCount
        rw [allTokens_unfold]
        simp only [hk, Bool.false_eq_true, if_false, he, if_false, List.countP_cons]
        by_cases hgc : hasGlobChar (nextToken key).2.1
        · simp only [hgc, if_true]
          omega
        · simp [hgc]
      have hcount0 : (nextToken key).2.1.isEmpty →
          globCount key = globCount (nextToken key).2.2 := by
        intro he
        unfold globCount
        rw [allTokens_unfold]
        simp [hk, he]
      rw [expand_unfold]
      simp only [hk, Bool.false_eq_true, if_false]
      by_cases htl : (nextToken key).2.1 = ['~']
      · exfalso
        apply hfree
        rw [allTokens_unfold]
        simp only [hk, Bool.false_eq_true, if_false, htl]
        simp
      · simp only [htl, if_false]
        by_cases hgl : hasGlobChar (nextToken key).2.1
        · simp only [hgl, if_true]
          have hge : ¬(nextToken key).2.1.isEmpty := by
            intro he
            have : (nextToken key).2.1 = [] := by simpa using he
            rw [this] at hgl
            exact absurd hgl (by decide)
          have hloop : ∀ ks, ∃ l,
              globLoop (fun x k => expand x k) c (nextToken key).2.2 ks = .ok l ∧
                ∀ t ∈ l, t.length = 1 + globCount (nextToken key).2.2 := by
            intro ks
            induction ks with
            | nil => exact ⟨[], rfl, by simp⟩
            | cons k ks ihks =>
              obtain ⟨r, hr, hrlen⟩ :=
                ih (nextToken key).2.2.length (by omega) _ rfl
                  (getitem c k) hfree'
              obtain ⟨r2, hr2, hr2len⟩ := ihks
              refine ⟨r.map (fun t => k :: t) ++ r2, ?_, ?_⟩
              · simp only [globLoop, hr, hr2]
              · intro t htm
                rcases List.mem_append.mp htm with hm1 | hm2
                · obtain ⟨u, hu, hut⟩ := List.mem_map.mp hm1
                  subst hut
                  simp only [List.length_cons, hrlen u hu]
                  omega
                · exact hr2len t hm2
          obtain ⟨l, hl, hlen⟩ := hloop _
          refine ⟨l, hl, ?_⟩
          intro t htm
          rw [hcount hge, if_pos hgl]
          exact hlen t htm
        · simp only [hgl, Bool.false_eq_true, if_false]
          by_cases htr : (getitem c (nextToken key).2.1).truthy
          · simp only [htr, if_true]
            obtain ⟨l, hl, hlen⟩ :=
              ih (nextToken key).2.2.length (by omega) _ rfl
                (getitem c (nextToken key).2.1) hfree'
            refine ⟨l, hl, ?_⟩
            intro t htm
            by_cases he : (nextToken key).2.1.isEmpty
            · rw [hcount0 he]
              exact hlen t htm
            · rw [hcount he, if_neg hgl]
              simpa using hlen t htm
          · simp only [htr, Bool.false_eq_true, if_false]
            exact ⟨[], rfl, by simp⟩

/-! Tree-builder invariant: every document-derived node records the
rstripped source line at its line number. -/

theorem stgood_close {lines : List (List Char)} {top under : Frame} {r : List Frame}
    (htop : goodFrame lines top) (hrest : StGood lines (under :: r)) :
    StGood lines (closeFrame top under :: r) := by
  have hnode : GoodNode lines (Conf.mk top.line top.orig top.lineno [] top.children) := by
    refine GoodNode.intro _ ?_ ?_ ?_
    · show top.orig = rstrip (lines.getD top.lineno [])
      exact htop.2.1
    · show top.line = some top.orig
      exact htop.1
    · show ∀ ch ∈ top.children, GoodNode lines ch
      exact htop.2.2
  have hch : ∀ c ∈ (closeFrame top under).children, GoodNode lines c := by
    intro c hc
    simp only [closeFrame] at hc
    rcases List.mem_append.mp hc with h1 | h2
    · cases hrest with
      | root fr h => exact h c h1
      | push fr st hfr hst => exact hfr.2.2 c h1
    · have : c = Conf.mk top.line top.orig top.lineno [] top.children := by simpa using h2
      rw [this]
      exact hnode
  cases hrest with
  | root fr h => exact StGood.root _ hch
  | push fr st hfr hst =>
    exact StGood.push _ _ ⟨hfr.1, hfr.2.1, hch⟩ hst

theorem stgood_collapseWhile (lines : List (List Char)) :
    ∀ (n ind : Nat) (st : List Frame), StGood lines st →
      StGood lines (collapseWhileF n ind st) := by
  intro n
  induction n with
  | zero => intro ind st h; exact h
  | succ m ihm =>
    intro ind st h
    match st with
    | [] => cases h
    | [fr] => simpa [collapseWhileF] using h
    | top :: under :: r =>
      cases h with
      | push fr st' hfr hst =>
        simp only [collapseWhileF]
        by_cases hc : ind ≤ top.indent.length
        · rw [if_pos hc]
          exact ihm ind _ (stgood_close hfr hst)
        · rw [if_neg hc]
          exact StGood.push _ _ hfr hst

theorem stgood_step (lines : List (List Char)) (st : List Frame) (i : Nat) (raw : List Char)
    (hst : StGood lines st) (hraw : raw = lines.getD i []) :
    StGood lines (step st i raw) := by
  unfold step
  by_cases hb : rstrip raw = (rstrip raw).takeWhile isWS
  · rw [if_pos hb]
    exact hst
  · rw [if_neg hb]
    have hnode : goodFrame lines
        ⟨some (rstrip raw), rstrip raw, i, [], (rstrip raw).takeWhile isWS⟩ := by
      refine ⟨rfl, ?_, by intro c hc; simp at hc⟩
      show rstrip raw = rstrip (lines.getD i [])
      rw [hraw]
    match st with
    | [] => exact StGood.root _ (by intro c hc; simp at hc)
    | top :: r =>
      show StGood lines
        (if top.indent.length < ((rstrip raw).takeWhile isWS).length then
          (⟨some (rstrip raw), rstrip raw, i, [], (rstrip raw).takeWhile isWS⟩ : Frame)
            :: top :: r
         else
          (⟨some (rstrip raw), rstrip raw, i, [], (rstrip raw).takeWhile isWS⟩ : Frame)
            :: collapseWhileF (top :: r).length ((rstrip raw).takeWhile isWS).length (top :: r))
      by_cases hcmp : top.indent.length < ((rstrip raw).takeWhile isWS).length
      · rw [if_pos hcmp]
        exact StGood.push _ _ hnode hst
      · rw [if_neg hcmp]
        exact StGood.push _ _ hnode (stgood_collapseWhile lines _ _ _ hst)

theorem stgood_run (lines : List (List Char)) :
    ∀ (ls : List (List Char)) (i : Nat) (st : List Frame),
      (∀ j, j < ls.length → ls.getD j [] = lines.getD (i + j) []) →
      StGood lines st → StGood lines (runParseAux i ls st) := by
  intro ls
  induction ls with
  | nil => intro i st _ hst; exact hst
  | cons l ls ihl =>
    intro i st h hst
    simp only [runParseAux]
    apply ihl (i + 1)
    · intro j hj
      have h2 := h (j + 1) (by simp; omega)
      simp only [List.getD_cons_succ] at h2
      rw [h2]
      congr 1
      omega
    · apply stgood_step lines st i l hst
      have h0 := h 0 (by simp)
      simpa using h0

theorem stgood_collapseAll (lines : List (List Char)) :
    ∀ (n : Nat) (st : List Frame), StGood lines st → st.length ≤ n + 1 →
      ∀ c ∈ (collapseAllF n st).children, GoodNode lines c := by
  intro n
  induction n with
  | zero =>
    intro st h hlen c hc
    match st with
    | [] => cases h
    | [fr] =>
      cases h with
      | root _ hgood =>
        exact hgood c (by simpa [collapseAllF] using hc)
      | push _ _ _ hst => cases hst
    | a :: b :: r => simp at hlen
  | succ m ihm =>
    intro st h hlen c hc
    match st with
    | [] => cases h
    | [fr] =>
      cases h with
      | root _ hgood =>
        exact hgood c (by simpa [collapseAllF] using hc)
      | push _ _ _ hst => cases hst
    | top :: under :: r =>
      cases h with
      | push _ _ hfr hst =>
        refine ihm _ (stgood_close hfr hst) ?_ c ?_
        · simp at hlen ⊢
          omega
        · simpa [collapseAllF] using hc

/-- Every child subtree of a parsed root is hereditarily good. -/
theorem parse_children_good (lines : List (List Char)) :
    ∀ c ∈ (parse lines).children, GoodNode lines c := by
  intro c hc
  have hst : StGood lines (runParseAux 0 lines [rootFrame]) := by
    apply stgood_run lines lines 0 [rootFrame]
    · intro j hj
      simp
    · exact StGood.root _ (by intro x hx; simp [rootFrame] at hx)
  have hmain := stgood_collapseAll lines (runParseAux 0 lines [rootFrame]).length
    (runParseAux 0 lines [rootFrame]) hst (by omega)
  apply hmain
  simpa [parse, Conf.children] using hc

theorem good_descend (lines : List (List Char)) :
    ∀ (f : Nat) (cs : List Conf), (∀ c ∈ cs, GoodNode lines c) →
      ∀ x ∈ descend f cs,
        x.origLine = rstrip (lines.getD x.lineno []) ∧ x.line = some x.origLine := by
  intro f
  induction f with
  | zero => intro cs _ x hx; simp [descend] at hx
  | succ m ihm =>
    intro cs h x hx
    match cs with
    | [] => simp [descend] at hx
    | c :: r =>
      simp only [descend] at hx
      rcases List.mem_cons.mp hx with h1 | h2
      · subst h1
        cases h x (List.mem_cons_self x r) with
        | intro _ ho hl _ => exact ⟨ho, hl⟩
      · have hcg : ∀ y ∈ c.children, GoodNode lines y := by
          cases h c (List.mem_cons_self c r) with
          | intro _ _ _ hch => exact hch
        refine ihm (c.children ++ r) ?_ x h2
        intro y hy
        rcases List.mem_append.mp hy with hy1 | hy2
        · exact hcg y hy1
        · exact h y (List.mem_cons_of_mem _ hy2)

/-! Tree-builder structure invariance: the parent/child shape depends only on
each line's blankness and leading-whitespace length. -/

theorem frEq_refl (f : Frame) : frEq f f := ⟨rfl, rfl, fun _ => rfl⟩

theorem closeFrame_frEq {t t' u u' : Frame} (ht : frEq t t') (hu : frEq u u') :
    frEq (closeFrame t u) (closeFrame t' u') := by
  refine ⟨hu.1, hu.2.1, ?_⟩
  intro fl
  show (u.children ++ [Conf.mk t.line t.orig t.lineno [] t.children]).map (shapeF fl) =
    (u'.children ++ [Conf.mk t'.line t'.orig t'.lineno [] t'.children]).map (shapeF fl)
  rw [List.map_append, List.map_append, hu.2.2 fl]
  congr 1
  simp only [List.map_cons, List.map_nil]
  congr 1
  cases fl with
  | zero => simp [shapeF, Conf.lineno, ht.1]
  | succ m =>
    simp only [shapeF]
    show LTree.node t.lineno (t.children.map (shapeF m)) =
      LTree.node t'.lineno (t'.children.map (shapeF m))
    rw [ht.1, ht.2.2 m]

theorem collapseWhile_frEq :
    ∀ (n ind : Nat) (st st' : List Frame), List.Forall₂ frEq st st' →
      List.Forall₂ frEq (collapseWhileF n ind st) (collapseWhileF n ind st') := by
  intro n
  induction n with
  | zero => intro ind st st' h; exact h
  | succ m ihm =>
    intro ind st st' h
    cases h with
    | nil => exact List.Forall₂.nil
    | cons h1 htail =>
      rename_i a a' as as'
      cases htail with
      | nil => simpa [collapseWhileF] using List.Forall₂.cons h1 List.Forall₂.nil
      | cons h2 htail2 =>
        rename_i b b' bs bs'
        simp only [collapseWhileF]
        rw [h1.2.1]
        by_cases hc : ind ≤ a'.indent.length
        · rw [if_pos hc, if_pos hc]
          exact ihm ind _ _ (List.Forall₂.cons (closeFrame_frEq h1 h2) htail2)
        · rw [if_neg hc, if_neg hc]
          exact List.Forall₂.cons h1 (List.Forall₂.cons h2 htail2)

theorem step_frEq {raw raw' : List Char} (i : Nat) {st st' : List Frame}
    (hkey : lineKey raw = lineKey raw') (hst : List.Forall₂ frEq st st') :
    List.Forall₂ frEq (step st i raw) (step st' i raw') := by
  unfold step
  have hkeq : ∀ l : List Char, lineKey l =
      if rstrip l = (rstrip l).takeWhile isWS then none
      else some ((rstrip l).takeWhile isWS).length := fun _ => rfl
  rw [hkeq, hkeq] at hkey
  by_cases hb : rstrip raw = (rstrip raw).takeWhile isWS
  · have hb' : rstrip raw' = (rstrip raw').takeWhile isWS := by
      by_contra hcon
      rw [if_pos hb, if_neg hcon] at hkey
      exact Option.noConfusion hkey
    rw [if_pos hb, if_pos hb']
    exact hst
  · have hb' : ¬rstrip raw' = (rstrip raw').takeWhile isWS := by
      intro hcon
      rw [if_neg hb, if_pos hcon] at hkey
      exact Option.noConfusion hkey
    have hlen : ((rstrip raw).takeWhile isWS).length = ((rstrip raw').takeWhile isWS).length := by
      rw [if_neg hb, if_neg hb'] at hkey
      exact Option.some.inj hkey
    rw [if_neg hb, if_neg hb']
    have hnode : frEq
        (⟨some (rstrip raw), rstrip raw, i, [], (rstrip raw).takeWhile isWS⟩ : Frame)
        (⟨some (rstrip raw'), rstrip raw', i, [], (rstrip raw').takeWhile isWS⟩ : Frame) :=
      ⟨rfl, hlen, fun _ => rfl⟩
    cases hst with
    | nil => exact List.Forall₂.cons hnode List.Forall₂.nil
    | cons h1 htail =>
      rename_i top top' r r'
      show List.Forall₂ frEq
        (if top.indent.length < ((rstrip raw).takeWhile isWS).length then
          (⟨some (rstrip raw), rstrip raw, i, [], (rstrip raw).takeWhile isWS⟩ : Frame)
            :: top :: r
         else
          (⟨some (rstrip raw), rstrip raw, i, [], (rstrip raw).takeWhile isWS⟩ : Frame)
            :: collapseWhileF (top :: r).length ((rstrip raw).takeWhile isWS).length (top :: r))
        (if top'.indent.length < ((rstrip raw').takeWhile isWS).length then
          (⟨some (rstrip raw'), rstrip raw', i, [], (rstrip raw').takeWhile isWS⟩ : Frame)
            :: top' :: r'
         else
          (⟨some (rstrip raw'), rstrip raw', i, [], (rstrip raw').takeWhile isWS⟩ : Frame)
            :: collapseWhileF (top' :: r').length ((rstrip raw').takeWhile isWS).length
              (top' :: r'))
      have hlen2 : (top :: r).length = (top' :: r').length :=
        (List.Forall₂.cons h1 htail).length_eq
      by_cases hcmp : top.indent.length < ((rstrip raw).takeWhile isWS).length
      · have hcmp' : top'.indent.length < ((rstrip raw').takeWhile isWS).length := by
          rw [← h1.2.1, ← hlen]
          exact hcmp
        rw [if_pos hcmp, if_pos hcmp']
        exact List.Forall₂.cons hnode (List.Forall₂.cons h1 htail)
      · have hcmp' : ¬top'.indent.length < ((rstrip raw').takeWhile isWS).length := by
          rw [← h1.2.1, ← hlen]
          exact hcmp
        rw [if_neg hcmp, if_neg hcmp']
        refine List.Forall₂.cons hnode ?_
        rw [← hlen2, ← hlen]
        exact collapseWhile_frEq _ _ _ _ (List.Forall₂.cons h1 htail)

theorem run_frEq :
    ∀ {ls ls' : List (List Char)} (i : Nat) {st st' : List Frame},
      List.Forall₂ (fun a b => lineKey a = lineKey b) ls ls' →
      List.Forall₂ frEq st st' →
      List.Forall₂ frEq (runParseAux i ls st) (runParseAux i ls' st') := by
  intro ls ls' i st st' hls
  induction hls generalizing i st st' with
  | nil => intro h; exact h
  | cons hkey htail ihtail =>
    intro h
    simp only [runParseAux]
    exact ihtail (i + 1) (step_frEq i hkey h)

theorem collapseAll_frEq :
    ∀ (n : Nat) {st st' : List Frame}, List.Forall₂ frEq st st' →
      frEq (collapseAllF n st) (collapseAllF n st') := by
  intro n
  induction n with
  | zero =>
    intro st st' h
    cases h with
    | nil => exact frEq_refl _
    | cons h1 htail =>
      simp only [collapseAllF, List.headD_cons]
      exact h1
  | succ m ihm =>
    intro st st' h
    cases h with
    | nil => exact frEq_refl _
    | cons h1 htail =>
      rename_i a a' as as'
      cases htail with
      | nil => simpa [collapseAllF] using h1
      | cons h2 htail2 =>
        simp only [collapseAllF]
        exact ihm (List.Forall₂.cons (closeFrame_frEq h1 h2) htail2)

theorem map_eq_forall₂ {α β : Type} (f : α → Option β) :
    ∀ {l l' : List α}, l.map f = l'.map f → List.Forall₂ (fun a b => f a = f b) l l' := by
  intro l
  induction l with
  | nil =>
    intro l' h
    cases l' with
    | nil => exact List.Forall₂.nil
    | cons x t => simp at h
  | cons x t iht =>
    intro l' h
    cases l' with
    | nil => simp at h
    | cons y u =>
      simp only [List.map_cons, List.cons.injEq] at h
      exact List.Forall₂.cons h.1 (iht h.2)

/-- The parent/child structure of the parsed tree depends only on each
line's blankness and leading-whitespace length. -/
theorem parse_shape_invariant {lines lines' : List (List Char)}
    (h : lines.map lineKey = lines'.map lineKey) :
    ∀ fl, shapeF fl (parse lines) = shapeF fl (parse lines') := by
  have hrun : List.Forall₂ frEq (runParseAux 0 lines [rootFrame])
      (runParseAux 0 lines' [rootFrame]) :=
    run_frEq 0 (map_eq_forall₂ lineKey h)
      (List.Forall₂.cons (frEq_refl rootFrame) List.Forall₂.nil)
  have hlen : (runParseAux 0 lines [rootFrame]).length =
      (runParseAux 0 lines' [rootFrame]).length := hrun.length_eq
  have hfr : frEq (collapseAllF (runParseAux 0 lines [rootFrame]).length
      (runParseAux 0 lines [rootFrame]))
      (collapseAllF (runParseAux 0 lines' [rootFrame]).length
        (runParseAux 0 lines' [rootFrame])) := by
    rw [hlen]
    exact collapseAll_frEq _ hrun
  intro fl
  cases fl with
  | zero => rfl
  | succ m =>
    show LTree.node 0 ((parse lines).children.map (shapeF m)) =
      LTree.node 0 ((parse lines').children.map (shapeF m))
    have hch : (parse lines).children.map (shapeF m) =
        (parse lines').children.map (shapeF m) := by
      show (collapseAllF (runParseAux 0 lines [rootFrame]).length
          (runParseAux 0 lines [rootFrame])).children.map (shapeF m) =
        (collapseAllF (runParseAux 0 lines' [rootFrame]).length
          (runParseAux 0 lines' [rootFrame])).children.map (shapeF m)
      exact hfr.2.2 m
    rw [hch]

/-- Case analysis of `_ensure_scalar` on the number of index entries. -/
theorem ensureScalar_cases (c : Conf) :
    ((computeIndex c).length = 0 → ensureScalar c = .error (.noMatch c.trace c.lineno)) ∧
    (1 < (computeIndex c).length →
      ensureScalar c = .error (.ambiguousMatch (computeIndex c).length c.trace c.lineno)) ∧
    ((computeIndex c).length = 1 →
      ensureScalar c = .ok ((computeIndex c).headD ([], [], [])).1) := by
  unfold ensureScalar
  refine ⟨fun h => ?_, fun h => ?_, fun h => ?_⟩
  · rw [if_pos h]
  · rw [if_neg (by omega), if_pos h]
  · rw [if_neg (by omega), if_neg (by omega)]

/-! The claims. -/

/-- C1: for every parsed tree and `~`-free key, each tuple yielded by
`expand` has exactly one element per glob segment of the key (plain literal
segments contribute none), and on the five-line interface example
`expand "interface * ip address *"` yields exactly
`[("IF1","1.1.1.1"), ("IF1","2.2.2.2"), ("IF2","1.1.1.2")]`, in document
order. -/
theorem c1_expand_wildcard_tuples :
    (∀ (c : Conf) (key : List Char), tildeFree key →
      ∃ l, expand c key = .ok l ∧ ∀ t ∈ l, t.length = globCount key) ∧
    expand exConf (sl "interface * ip address *") =
      .ok [[sl "IF1", sl "1.1.1.1"], [sl "IF1", sl "2.2.2.2"], [sl "IF2", sl "1.1.1.2"]] := by
  constructor
  · intro c key hfree
    exact expand_arity key.length key rfl c hfree
  · rfl

theorem c1_expand_wildcard_tuples_witness :
    ∃ l, expand exConf (sl "interface * ip address *") = .ok l ∧
      ∀ t ∈ l, t.length = globCount (sl "interface * ip address *") :=
  c1_expand_wildcard_tuples.1 exConf (sl "interface * ip address *")
    (by show ['~'] ∉ allTokens (sl "interface * ip address *"); decide)

/-- C2 counterexample: on the section 8 interface example,
`root["interface IF1 ip"].word` does not fail with `AmbiguousMatch` — the
index of that node has the single bucket `address` (both `address` lines
share one keyword), so `word` succeeds and returns `"address"`. -/
theorem c2_scalar_gate_counterexample :
    word (getitem exConf (sl "interface IF1 ip")) = .ok (sl "address") ∧
    ∀ (n : Nat) (tr : List (List Char)) (ln : Nat),
      word (getitem exConf (sl "interface IF1 ip")) ≠ .error (.ambiguousMatch n tr ln) := by
  refine ⟨rfl, fun n tr ln h => ?_⟩
  rw [show word (getitem exConf (sl "interface IF1 ip")) = .ok (sl "address") from rfl] at h
  exact Except.noConfusion h

/-- C2 (amended): every scalar accessor requires exactly one index entry —
zero entries fail with `NoMatch`, more than one with `AmbiguousMatch`
carrying the count, trace and source line, and one entry yields the sole
keyword; on the section 8 example `root["interface IF1 ip"].word` succeeds
with `"address"` (one bucket), while `root["interface IF1 ip address"].word`
fails with `AmbiguousMatch` on 2 entries. -/
theorem c2_scalar_gate :
    (∀ c : Conf,
      ((computeIndex c).length = 0 → ensureScalar c = .error (.noMatch c.trace c.lineno)) ∧
      (1 < (computeIndex c).length →
        ensureScalar c = .error (.ambiguousMatch (computeIndex c).length c.trace c.lineno)) ∧
      ((computeIndex c).length = 1 →
        ensureScalar c = .ok ((computeIndex c).headD ([], [], [])).1)) ∧
    word (getitem exConf (sl "interface IF1 ip")) = .ok (sl "address") ∧
    word (getitem exConf (sl "interface IF1 ip address")) =
      .error (.ambiguousMatch 2 [sl "interface", sl "IF1", sl "ip", sl "address"] 1) :=
  ⟨ensureScalar_cases, rfl, rfl⟩

theorem c2_scalar_gate_witness :
    (computeIndex Conf.empty).length = 0 ∧
      ensureScalar Conf.empty = .error (.noMatch [] 0) :=
  ⟨rfl, (c2_scalar_gate.1 Conf.empty).1 rfl⟩

/-- C3 counterexample: with the document `b`, the compound lookup
`n["# b"]` returns `n` itself (the marker empties the whole key), while
`n["#"]["b"]` resolves `b` — the two nodes differ (their traces differ). -/
theorem c3_path_decomposition_counterexample :
    getitem c3Conf (sl "# b") ≠ getitem (getitem c3Conf (sl "#")) (sl "b") := by
  intro h
  have ht := congrArg Conf.trace h
  rw [show (getitem c3Conf (sl "# b")).trace = [] from rfl,
    show (getitem (getitem c3Conf (sl "#")) (sl "b")).trace = [sl "b"] from rfl] at ht
  exact List.noConfusion ht

/-- C3 (amended): the path decomposition law `n["a b"] = n["a"]["b"]` holds
whenever the first token `a` is a single non-empty whitespace-free token
that is not a structural marker (`{`, `}`, `#`, `!`) and does not end with
`;`; the excluded tokens genuinely break the law. -/
theorem c3_path_decomposition (n : Conf) (a b : List Char) (ha : a ≠ [])
    (hw : a.all (fun c => !isWS c) = true) (hm : a ∉ markers)
    (hs : a.getLast? ≠ some ';') :
    getitem n (a ++ ' ' :: b) = getitem (getitem n a) b :=
  getitem_sep n b ha hw hm hs

theorem c3_path_decomposition_witness :
    getitem exConf (sl "interface" ++ ' ' :: sl "IF1 ip") =
      getitem (getitem exConf (sl "interface")) (sl "IF1 ip") :=
  c3_path_decomposition exConf (sl "interface") (sl "IF1 ip")
    (by decide) (by decide) (by decide) (by decide)

/-- C4 counterexample: on the document `Foo bar`, the glob key `F*` selects
the keyword while `f*` selects nothing — `fnmatch.filter` (POSIX
`os.path.normcase` is the identity) matches the display keywords
case-sensitively, so the selection is not invariant under case changes of
the pattern. -/
theorem c4_glob_case_counterexample :
    expand c4Conf (sl "F*") = .ok [[sl "Foo"]] ∧ expand c4Conf (sl "f*") = .ok [] :=
  ⟨rfl, rfl⟩

/-- C4 (amended): a single-token glob key segment selects exactly those of
the node's display keywords that match the pattern case-sensitively under
shell-glob semantics (`*` any run, `?` any one character, `[...]` a
character class), in index order; the selection is not case-insensitive. -/
theorem c4_glob_selection (c : Conf) (pat : List Char) (ha : pat ≠ [])
    (hw : pat.all (fun ch => !isWS ch) = true) (hm : pat ∉ markers)
    (hs : pat.getLast? ≠ some ';') (hg : hasGlobChar pat = true) :
    expand c pat =
      .ok (((keywords c).filter (fun k => globMatch pat k)).map (fun k => [k])) :=
  expand_single_glob c ha hw hm hs hg

theorem c4_glob_selection_witness :
    expand c4Conf (sl "F*") =
      .ok (((keywords c4Conf).filter (fun k => globMatch (sl "F*") k)).map (fun k => [k])) :=
  c4_glob_selection c4Conf (sl "F*") (by decide) (by decide) (by decide) (by decide) (by decide)

/-- C5 counterexample: parsing the single line `"a  "` (with trailing
whitespace) stores `"a"` — not the unmodified raw line — in both
`original_text` and `content`: the builder rstrips every line first. -/
theorem c5_node_text_counterexample :
    (parse [sl "a  "]).children = [Conf.mk (some (sl "a")) (sl "a") 0 [] []] ∧
      sl "a" ≠ sl "a  " :=
  ⟨rfl, by decide⟩

/-- C5 (amended): every node created by the tree builder stores, in both
`original_text` and `content`, the raw source line at its 0-based
`source_line_number` with trailing whitespace stripped (leading whitespace
kept); `content` equals `original_text`. -/
theorem c5_node_text (lines : List (List Char)) (f : Nat) (x : Conf)
    (hx : x ∈ descend f (parse lines).children) :
    x.origLine = rstrip (lines.getD x.lineno []) ∧ x.line = some x.origLine :=
  good_descend lines f _ (parse_children_good lines) x hx

theorem c5_node_text_witness :
    ((parse exLines).children.headD Conf.empty).origLine =
      rstrip (exLines.getD ((parse exLines).children.headD Conf.empty).lineno []) ∧
    ((parse exLines).children.headD Conf.empty).line =
      some ((parse exLines).children.headD Conf.empty).origLine := by
  refine c5_node_text exLines 1 ((parse exLines).children.headD Conf.empty) ?_
  have hd : descend 1 (parse exLines).children =
      [(parse exLines).children.headD Conf.empty] := rfl
  rw [hd]
  exact List.mem_singleton.mpr rfl

/-- C6 counterexample: the reachable truthy node
`root["interface IF1 ip address 1.1.1.1"]` has an empty computed index, and
after a first `_reindex` has stored it, a second `_reindex` recomputes it
(the guard `if self._index: return` does not fire on an empty dict) —
contradicting "every subsequent operation reuses the stored index without
recomputing it" in the empty case. -/
theorem c6_reindex_cache_counterexample :
    c6Node.truthy = true ∧ computeIndex c6Node = [] ∧
      (reindexStep (reindexStep (c6Node, [])).1).2 = true :=
  ⟨rfl, rfl, rfl⟩

/-- C6 (amended): `_reindex` never mutates the node itself, the first call
stores the index computed from the node's fields, and a second call leaves
the stored state unchanged — but it skips recomputation exactly when the
computed index is non-empty; an empty index is recomputed (idempotently and
harmlessly) on every subsequent call. -/
theorem c6_reindex_cache (c : Conf) (cache : List (List Char × List Char × List Conf)) :
    (reindexStep (c, cache)).1.1 = c ∧
    (reindexStep (c, [])).1 = (c, computeIndex c) ∧
    (reindexStep (reindexStep (c, [])).1).1 = (reindexStep (c, [])).1 ∧
    ((reindexStep (reindexStep (c, [])).1).2 = false ↔ computeIndex c ≠ []) := by
  refine ⟨?_, ?_, ?_, ?_⟩
  · unfold reindexStep
    by_cases h : cache.isEmpty
    · rw [if_pos h]
    · rw [if_neg h]
  · rfl
  · show (reindexStep (c, computeIndex c)).1 = (c, computeIndex c)
    unfold reindexStep
    by_cases h : (computeIndex c).isEmpty
    · rw [if_pos h]
    · rw [if_neg h]
  · show (reindexStep (c, computeIndex c)).2 = false ↔ computeIndex c ≠ []
    unfold reindexStep
    by_cases h : (computeIndex c).isEmpty
    · rw [if_pos h]
      have he : computeIndex c = [] := by simpa using h
      simp [he]
    · rw [if_neg h]
      have hne : computeIndex c ≠ [] := by simpa using h
      simp [hne]

/-- C7 counterexample: in the document `a / "  b" / "    c" / x / "    d"`,
lines 2 and 4 both have leading-whitespace runs of length 4, yet line 2 sits
at depth 3 and line 4 at depth 2 — equal run length does not imply equal
depth. -/
theorem c7_indent_counterexample :
    depthsW 20 [(0, shapeF 20 (parse c7Lines))] =
      [(0, 0), (0, 1), (1, 2), (2, 3), (3, 1), (4, 2)] ∧
    ((rstrip (c7Lines.getD 2 [])).takeWhile isWS).length = 4 ∧
    ((rstrip (c7Lines.getD 4 [])).takeWhile isWS).length = 4 :=
  ⟨rfl, rfl, rfl⟩

/-- C7 (amended): the tree builder compares indentation purely by length of
leading whitespace: any two documents whose lines agree, position by
position, on blankness and leading-whitespace length (in particular, a
document with any line's leading whitespace replaced by different
whitespace of equal length) parse to trees with identical parent/child
structure; equal-length runs at arbitrary positions need not get equal
depth. -/
theorem c7_indent_by_length (lines lines' : List (List Char))
    (h : lines.map lineKey = lines'.map lineKey) :
    ∀ fl, shapeF fl (parse lines) = shapeF fl (parse lines') :=
  parse_shape_invariant h

theorem c7_indent_by_length_witness :
    shapeF 5 (parse [sl "a", sl "\tb"]) = shapeF 5 (parse [sl "a", sl " b"]) :=
  c7_indent_by_length [sl "a", sl "\tb"] [sl "a", sl " b"] (by decide) 5

/-- C8: on the reachable merge node `root["foo"]` of the two-line document
`foo / foo`, `expand("~")` (and hence `tails`) hits the per-child
`assert c._line` with children whose residual content is the empty string,
and raises `AssertionError` instead of yielding one tuple per child line. -/
theorem c8_tilde_assert_failure :
    expand (getitem (parse [sl "foo", sl "foo"]) (sl "foo")) ['~'] = .error .assertFailed ∧
    tails (getitem (parse [sl "foo", sl "foo"]) (sl "foo")) = .error .assertFailed :=
  ⟨rfl, rfl⟩

/-- C9 counterexample: on the falsy node, iterating `expand` over
`"a ~ b"` — a key in which `~` is followed by a further token — yields the
empty sequence without raising: the plain segment `a` fails to resolve
before the `~` is ever examined. -/
theorem c9_nonfinal_tilde_counterexample :
    expand Conf.empty (sl "a ~ b") = .ok [] := rfl

/-- C9 (amended): whenever expansion actually reaches a `~` token that is
followed by further tokens — in particular whenever `~` is the first token
of the key — `expand` raises the invalid-usage condition (`ValueError`),
for every node, and it is not recovered internally; a key whose earlier
segments fail to match yields an empty sequence without raising. -/
theorem c9_nonfinal_tilde (c : Conf) (key : List Char)
    (ht : (nextToken key).2.1 = ['~']) (hr : (nextToken key).2.2 ≠ []) :
    expand c key = .error .invalidUsage :=
  expand_nonfinal_tilde c ht hr

theorem c9_nonfinal_tilde_witness :
    expand exConf (sl "~ x") = .error .invalidUsage :=
  c9_nonfinal_tilde exConf (sl "~ x") (by decide) (by decide)

/-- C10: for every node and every key whose first whitespace-delimited word
is exactly one of the structural markers `{`, `}`, `#`, `!`, the lookup
returns the node itself unchanged (the tokenizer reports the no-token
triple and the resolver treats the key as empty), so in particular it is
truthy whenever the node is. -/
theorem c10_marker_returns_self (c : Conf) (key : List Char)
    (h : (key.dropWhile isWS).takeWhile (fun ch => !isWS ch) ∈ markers) :
    getitem c key = c ∧ (getitem c key).truthy = c.truthy := by
  have he := getitem_marker c h
  exact ⟨he, by rw [he]⟩

theorem c10_marker_returns_self_witness :
    getitem exConf (sl "# foo") = exConf ∧
      (getitem exConf (sl "# foo")).truthy = exConf.truthy :=
  c10_marker_returns_self exConf (sl "# foo") (by decide)

end Netcop
